import Mathlib

/-!
Verification of the AutoLab DNA-assembly planning and lab-workflow core.

The definitions below are shallow embeddings of the Python sources:

* `src/seq_to_pipetting_steps.py` — greedy fragment decomposition
  (`find_sequence_fragments`), worklist generation (`write_worklist`,
  `format_well`, `get_destination_well`);
* `src/lab_controller.py` — the `DNATracker` inventory ledger
  (`update_volumes`, `refill_dna`, `get_well_formats`,
  `print_inventory_report`) and the `LabController` / `PlateDataHandler`
  event-driven state machine.

Nucleotide sequences and well strings are modelled as `List Char`;
a fragment library is an association list in file order (Python dicts
iterate in insertion order); volumes are rationals; fallible code
returns `Except`.  The greedy scan is implemented by structural
recursion on a fuel argument initialised to the sequence length, which
the scan can never exhaust because every matched fragment is nonempty.
-/

namespace AutoLab

/-- A nucleotide sequence / fragment, as a list of characters. -/
abbrev Frag := List Char

/-- The fragment library: parent rows in file order, each with its
fragment strings indexed by position (`data = {row[0]: row[1:]}`). -/
abbrev Lib := List (String × List Frag)

/-- Fragment identifier rendering, `f"{p}f{f}"` in the source. -/
def mkFragId (p : String) (i : Nat) : String :=
  p ++ "f" ++ Nat.repr i

/-- Inner loop of the greedy scan: enumerate the fragments of one parent
(indices counting empty cells, which never match) and return the first
nonempty fragment that begins the remaining suffix `s`
(`if fragment and sequence.startswith(fragment, start)`). -/
def fragMatch (s : Frag) : Nat → List Frag → Option (Nat × Frag)
  | _, [] => none
  | i, f :: fs => if f ≠ [] ∧ f <+: s then some (i, f) else fragMatch s (i + 1) fs

/-- Outer loop of the greedy scan: parents in library file order, with
the double `break` on the first match. -/
def parentMatch (data : Lib) (s : Frag) : Option (String × Frag) :=
  match data with
  | [] => none
  | (p, fs) :: rest =>
    match fragMatch s 0 fs with
    | some (i, f) => some (mkFragId p i, f)
    | none => parentMatch rest s

/-- All fragment strings of the library (including empty cells). -/
def libFrags (data : Lib) : List Frag :=
  (data.map Prod.snd).flatten

/-- The library's nonempty fragments form a prefix code: no nonempty
fragment is a proper prefix of a distinct nonempty fragment.  (Stated
as a negated conjunction so that it is decidable on concrete
libraries.) -/
abbrev PrefixFreeLib (data : Lib) : Prop :=
  ∀ f ∈ libFrags data, ∀ g ∈ libFrags data, ¬(f ≠ [] ∧ g ≠ [] ∧ f <+: g ∧ f ≠ g)

/-- The `while start < len(sequence)` loop of `find_sequence_fragments`,
returning the fragment identifiers, or the first uncovered position on
failure (`No matching fragment found for sequence starting at position
{start}`).  `fuel` bounds the number of iterations; it is initialised to
the sequence length, which suffices since every match is nonempty. -/
def findSeqFuel (data : Lib) : Nat → Nat → Frag → Except Nat (List String)
  | 0, _, _ => .ok []
  | fuel + 1, pos, s =>
    if s = [] then .ok []
    else
      match parentMatch data s with
      | none => .error pos
      | some (id, f) =>
        match findSeqFuel data fuel (pos + f.length) (s.drop f.length) with
        | .ok rest => .ok (id :: rest)
        | .error e => .error e

/-- `find_sequence_fragments` of `src/seq_to_pipetting_steps.py` /
`src/generate_assay_plate.py`: greedy first-match exact-prefix tiling
starting at position 0. -/
def find_sequence_fragments (data : Lib) (sequence : Frag) : Except Nat (List String) :=
  findSeqFuel data sequence.length 0 sequence

/-- Instrumented variant of the same loop that also records the matched
fragment string next to each identifier (the loop's local `fragment`
variable), used to state the round-trip property. -/
def findCoreFuel (data : Lib) : Nat → Nat → Frag → Except Nat (List (String × Frag))
  | 0, _, _ => .ok []
  | fuel + 1, pos, s =>
    if s = [] then .ok []
    else
      match parentMatch data s with
      | none => .error pos
      | some (id, f) =>
        match findCoreFuel data fuel (pos + f.length) (s.drop f.length) with
        | .ok rest => .ok ((id, f) :: rest)
        | .error e => .error e

/-- Instrumented decomposition from position 0. -/
def findFragsCore (data : Lib) (sequence : Frag) : Except Nat (List (String × Frag)) :=
  findCoreFuel data sequence.length 0 sequence

/-- Suffixes of the target reachable by the greedy scan: `GreedyReach
data s s'` holds when, starting from suffix `s`, repeatedly consuming
the first-match fragment reaches suffix `s'`. -/
inductive GreedyReach (data : Lib) : Frag → Frag → Prop
  | refl (s : Frag) : GreedyReach data s s
  | step {s s' : Frag} {id : String} {f : Frag} :
      parentMatch data s = some (id, f) →
      GreedyReach data (s.drop f.length) s' →
      GreedyReach data s s'

/-- A fragment stored at row index `i`, column index `j` of the library
matches the suffix `s`. -/
def MatchAt (data : Lib) (s : Frag) (i j : Nat) (f : Frag) : Prop :=
  ∃ p fs, data.get? i = some (p, fs) ∧ fs.get? j = some f ∧ f ≠ [] ∧ f <+: s

/-- `(i, j)` is the first matching library cell in scan order (parents
in file order, then fragment position ascending). -/
def FirstMatchAt (data : Lib) (s : Frag) (i j : Nat) (f : Frag) : Prop :=
  MatchAt data s i j f ∧
    ∀ i' j' f', MatchAt data s i' j' f' → (i < i' ∨ (i = i' ∧ j ≤ j'))

/-- Decimal digits of a natural number. -/
def natDigits (n : Nat) : List Char :=
  (Nat.repr n).data

/-- Zero-padded two-digit rendering, `f"{n:02d}"`. -/
def pad2 (n : Nat) : List Char :=
  if n < 10 then '0' :: natDigits n else natDigits n

/-- Numeric value of a decimal digit character. -/
def digitVal (c : Char) : Nat := c.toNat - 48

/-- Numeric value of a decimal digit string, `int(col)` in the source. -/
def digitsVal (cs : List Char) : Nat :=
  cs.foldl (fun a c => 10 * a + digitVal c) 0

/-- One row of the fragment-assembly worklist CSV. -/
structure WRow where
  Index : List Char
  Source_Plate : String
  Source_Well : List Char
  Destination_Plate : String
  Destination_Well : List Char
  Volume : String
  Pre_Aspirate_Mix_Volume : String
  Post_Dispense_Mix_Volume : String
deriving DecidableEq

/-- `format_well`: convert well format from `B3` to `B03`. -/
def format_well (well : List Char) : List Char :=
  match well with
  | [] => []
  | letter :: number => if number.length = 1 then letter :: '0' :: number else letter :: number

/-- `get_destination_well`: the static rank → destination-well table
`{1: 'A01', 2: 'C01', 3: 'E01'}`; `none` models the `KeyError` raised
for any other rank. -/
def get_destination_well (seq_num : Nat) : Option (List Char) :=
  match seq_num with
  | 1 => some ['A', '0', '1']
  | 2 => some ['C', '0', '1']
  | 3 => some ['E', '0', '1']
  | _ => none

/-- The `for well in wells` body of `write_worklist`: one row per source
well, with the running global index. -/
def rowsFor (dest : List Char) : List (List Char) → Nat → List WRow
  | [], _ => []
  | w :: ws, idx =>
    { Index := pad2 idx
      Source_Plate := "DNA_frags"
      Source_Well := format_well w
      Destination_Plate := "Rxn_plate"
      Destination_Well := dest
      Volume := "5"
      Pre_Aspirate_Mix_Volume := "0"
      Post_Dispense_Mix_Volume := "0" } :: rowsFor dest ws (idx + 1)

/-- The `for seq_num, wells in enumerate(all_wells, 1)` loop of
`write_worklist`: per-target fragment-count check, destination lookup,
then one row per well.  Errors carry the exception message. -/
def write_worklist_rows : List (List (List Char)) → Nat → Nat → Except String (List WRow)
  | [], _, _ => .ok []
  | wells :: rest, seqNum, idx =>
    if wells.length ≠ 8 then
      .error ("Sequence " ++ Nat.repr seqNum ++ " has " ++ Nat.repr wells.length
        ++ " fragments, expected 8")
    else
      match get_destination_well seqNum with
      | none => .error ("KeyError: " ++ Nat.repr seqNum)
      | some dest =>
        match write_worklist_rows rest (seqNum + 1) (idx + wells.length) with
        | .ok rs => .ok (rowsFor dest wells idx ++ rs)
        | .error e => .error e

/-- `write_worklist`: rows for all targets, global index starting at 1. -/
def write_worklist (all_wells : List (List (List Char))) : Except String (List WRow) :=
  write_worklist_rows all_wells 1 1

/-- `LabState` of `src/lab_controller.py`. -/
inductive LabState
  | IDLE
  | SEQUENCE_RECEIVED
  | EXPERIMENTING
  | PROCESSING
  | ERROR
deriving DecidableEq

/-- Orchestrator state.  `status`, `seqMon`/`plateMon` (whether the
sequence-file / plate-data observers are scheduled) and
`lastPlateHash` (`PlateDataHandler.last_processed_hash`) mirror code
state; `lastSeqHash` and `genCount` are observer fields of the
embedding recording the hash of the last sequence content processed by
`SequenceHandler.on_modified` and the number of `generate_lab_files`
invocations, used to state the debouncing claims. -/
structure LabSt where
  status : LabState
  seqMon : Bool
  plateMon : Bool
  lastPlateHash : Option Nat
  lastSeqHash : Option Nat
  genCount : Nat
deriving DecidableEq

/-- External file-change notifications.  `h` abstracts the MD5 content
hash; `genOk` / `procOk` abstract whether `generate_lab_files` resp.
`process_and_transfer` succeed. -/
inductive LabEvent
  | seqModified (h : Nat) (genOk : Bool)
  | plateModified (h : Nat) (procOk : Bool)

/-- State after `LabController.run` calls `start_sequence_monitoring`. -/
def initSt : LabSt :=
  { status := .IDLE, seqMon := true, plateMon := false
    lastPlateHash := none, lastSeqHash := none, genCount := 0 }

/-- `SequenceHandler.on_modified`: if the sequence observer is active,
set status to `SEQUENCE_RECEIVED` and run `generate_lab_files`
unconditionally (there is no content-hash check); on success the
sequence observer is stopped inside `generate_lab_files`, status
becomes `EXPERIMENTING` and `start_plate_monitoring` creates a fresh
`PlateDataHandler` (whose `last_processed_hash` is `None`); on failure
nothing else changes. -/
def seqStep (s : LabSt) (h : Nat) (genOk : Bool) : LabSt :=
  if s.seqMon then
    if genOk then
      { s with status := .EXPERIMENTING, seqMon := false, plateMon := true,
               lastPlateHash := none, lastSeqHash := some h,
               genCount := s.genCount + 1 }
    else
      { s with status := .SEQUENCE_RECEIVED, lastSeqHash := some h,
               genCount := s.genCount + 1 }
  else s

/-- `PlateDataHandler.on_modified`: if the plate observer is active and
the content hash differs from `last_processed_hash`, run
`process_and_transfer` (on success: stop the plate observer, restart
sequence monitoring) and record the hash; an equal hash returns early. -/
def plateStep (s : LabSt) (h : Nat) (procOk : Bool) : LabSt :=
  if s.plateMon then
    if s.lastPlateHash = some h then s
    else if procOk then
      { s with plateMon := false, seqMon := true, lastPlateHash := some h }
    else
      { s with lastPlateHash := some h }
  else s

/-- One notification step of the orchestrator. -/
def labStep (s : LabSt) (e : LabEvent) : LabSt :=
  match e with
  | .seqModified h genOk => seqStep s h genOk
  | .plateModified h procOk => plateStep s h procOk

/-- Run of the orchestrator on a serialized trace of notifications. -/
def labRun (evs : List LabEvent) : LabSt :=
  evs.foldl labStep initSt

/-- One entry of a `DNATracker` inventory history. -/
inductive HistEvent
  | debitEv (timestamp : Nat) (volume_used volume_remaining : ℚ)
  | creditEv (timestamp : Nat) (volume_added volume_total : ℚ)
deriving DecidableEq

/-- One tracked inventory entry (`{"well": ..., "volume": ...,
"history": [...]}`). -/
structure Entry where
  well : List Char
  volume : ℚ
  history : List HistEvent
deriving DecidableEq

/-- The inventory: fragment id → entry, in insertion order. -/
abbrev Inventory := List (String × Entry)

/-- `DNATracker.get_well_formats`: `[well, f"{row}{int(col)}",
f"{row}{int(col):02d}"]`. -/
def get_well_formats (well : List Char) : List (List Char) :=
  match well with
  | [] => []
  | r :: cs => [r :: cs, r :: natDigits (digitsVal cs), r :: pad2 (digitsVal cs)]

/-- The well-resolution scan shared by `update_volumes` and
`refill_dna`: first inventory entry whose stored well is among the
formats of the requested well. -/
def resolveWell (inv : Inventory) (w : List Char) : Option String :=
  match inv with
  | [] => none
  | (fid, e) :: rest =>
    if e.well ∈ get_well_formats w then some fid else resolveWell rest w

/-- Replace the entry stored under `fid`. -/
def updateEntry (inv : Inventory) (fid : String) (upd : Entry → Entry) : Inventory :=
  match inv with
  | [] => []
  | (g, e) :: rest =>
    if g = fid then (g, upd e) :: rest else (g, e) :: updateEntry rest fid upd

/-- The debit mutation of `update_volumes`: subtract (no clamping) and
append one history event. -/
def debitEntry (e : Entry) (vol : ℚ) (ts : Nat) : Entry :=
  { e with volume := e.volume - vol
           history := e.history ++ [.debitEv ts vol (e.volume - vol)] }

/-- The credit mutation of `refill_dna`: add and append one history
event. -/
def creditEntry (e : Entry) (vol : ℚ) (ts : Nat) : Entry :=
  { e with volume := e.volume + vol
           history := e.history ++ [.creditEv ts vol (e.volume + vol)] }

/-- One iteration of the `update_volumes` row loop: resolve the row's
source well and debit the matching entry; an unmatched well is only a
warning and leaves the inventory unchanged. -/
def debitRow (inv : Inventory) (w : List Char) (vol : ℚ) (ts : Nat) : Inventory :=
  match resolveWell inv w with
  | some fid => updateEntry inv fid (fun e => debitEntry e vol ts)
  | none => inv

/-- `DNATracker.update_volumes` on a worklist of `(source well, volume)`
rows, with one timestamp per call. -/
def update_volumes (inv : Inventory) (rows : List (List Char × ℚ)) (ts : Nat) : Inventory :=
  rows.foldl (fun acc r => debitRow acc r.1 r.2 ts) inv

/-- `DNATracker.refill_dna`: resolve the target by fragment id if it is
tracked, otherwise by well; credit it; an unresolved target is only a
message and leaves the inventory unchanged. -/
def refill_dna (inv : Inventory) (fragment_id : Option String) (well : Option (List Char))
    (volume_added : ℚ) (ts : Nat) : Inventory :=
  if fragment_id.isSome ∨ well.isSome then
    let target : Option String :=
      match fragment_id with
      | some fid => if (inv.lookup fid).isSome then some fid else well.bind (resolveWell inv)
      | none => well.bind (resolveWell inv)
    match target with
    | some fid => updateEntry inv fid (fun e => creditEntry e volume_added ts)
    | none => inv
  else inv

/-- Status column of `print_inventory_report`:
`"LOW" if data['volume'] < 50 else "OK"`. -/
def entryStatus (e : Entry) : String :=
  if e.volume < 50 then "LOW" else "OK"

/-- One line of the inventory report. -/
structure ReportRow where
  id : String
  well : List Char
  volume : ℚ
  status : String
deriving DecidableEq

/-- `DNATracker.print_inventory_report`: entries sorted by fragment id,
each with its status. -/
def inventory_report (inv : Inventory) : List ReportRow :=
  (inv.mergeSort (fun a b => a.1 ≤ b.1)).map
    (fun x => { id := x.1, well := x.2.well, volume := x.2.volume, status := entryStatus x.2 })

end AutoLab

namespace AutoLab

/-! ### Basic properties of the greedy scan -/

theorem fragMatch_some_spec : ∀ {fs : List Frag} {s f : Frag} {i j : Nat},
    fragMatch s i fs = some (j, f) → f ∈ fs ∧ f ≠ [] ∧ f <+: s := by
  intro fs
  induction fs with
  | nil => intro s f i j h; simp [fragMatch] at h
  | cons a as ih =>
    intro s f i j h
    simp only [fragMatch] at h
    split at h
    · rename_i hc
      simp only [Option.some.injEq, Prod.mk.injEq] at h
      obtain ⟨-, rfl⟩ := h
      exact ⟨List.mem_cons_self _ _, hc⟩
    · obtain ⟨hm, h2, h3⟩ := ih h
      exact ⟨List.mem_cons_of_mem _ hm, h2, h3⟩

theorem fragMatch_none_spec : ∀ {fs : List Frag} {s : Frag} {i : Nat},
    fragMatch s i fs = none → ∀ f ∈ fs, f = [] ∨ ¬ f <+: s := by
  intro fs
  induction fs with
  | nil => intro s i _ f hf; simp at hf
  | cons a as ih =>
    intro s i h f hf
    simp only [fragMatch] at h
    split at h
    · exact absurd h (by simp)
    · rename_i hc
      rcases List.mem_cons.mp hf with rfl | hf
      · by_cases ha : f = []
        · exact Or.inl ha
        · exact Or.inr (fun hp => hc ⟨ha, hp⟩)
      · exact ih h f hf

theorem fragMatch_isSome_of : ∀ {fs : List Frag} {s f : Frag} {i : Nat},
    f ∈ fs → f ≠ [] → f <+: s → (fragMatch s i fs).isSome := by
  intro fs
  induction fs with
  | nil => intro s f i hf; simp at hf
  | cons a as ih =>
    intro s f i hf hne hpre
    simp only [fragMatch]
    split
    · simp
    · rename_i hc
      rcases List.mem_cons.mp hf with rfl | hf
      · exact absurd ⟨hne, hpre⟩ hc
      · exact ih hf hne hpre

theorem libFrags_cons (p : String) (fs : List Frag) (rest : Lib) :
    libFrags ((p, fs) :: rest) = fs ++ libFrags rest := by
  simp [libFrags]

theorem parentMatch_some_spec : ∀ {data : Lib} {s f : Frag} {id : String},
    parentMatch data s = some (id, f) → f ∈ libFrags data ∧ f ≠ [] ∧ f <+: s := by
  intro data
  induction data with
  | nil => intro s f id h; simp [parentMatch] at h
  | cons hd rest ih =>
    intro s f id h
    obtain ⟨p, fs⟩ := hd
    simp only [parentMatch] at h
    split at h
    · rename_i i g hg
      simp only [Option.some.injEq, Prod.mk.injEq] at h
      obtain ⟨-, rfl⟩ := h
      obtain ⟨hm, h2, h3⟩ := fragMatch_some_spec hg
      exact ⟨by simp [libFrags_cons]; exact Or.inl hm, h2, h3⟩
    · obtain ⟨hm, h2, h3⟩ := ih h
      exact ⟨by simp [libFrags_cons]; exact Or.inr hm, h2, h3⟩

theorem parentMatch_isSome_of : ∀ {data : Lib} {s f : Frag},
    f ∈ libFrags data → f ≠ [] → f <+: s → (parentMatch data s).isSome := by
  intro data
  induction data with
  | nil => intro s f hf; simp [libFrags] at hf
  | cons hd rest ih =>
    intro s f hf hne hpre
    obtain ⟨p, fs⟩ := hd
    rw [libFrags_cons] at hf
    simp only [parentMatch]
    rcases List.mem_append.mp hf with hf | hf
    · have := fragMatch_isSome_of (i := 0) hf hne hpre
      obtain ⟨⟨i, g⟩, hg⟩ := Option.isSome_iff_exists.mp this
      rw [hg]; simp
    · cases hfm : fragMatch s 0 fs with
      | some x => simp
      | none => exact ih hf hne hpre

theorem parentMatch_none_spec {data : Lib} {s : Frag} (h : parentMatch data s = none) :
    ∀ f ∈ libFrags data, f ≠ [] → ¬ f <+: s := by
  intro f hf hne hpre
  have := parentMatch_isSome_of hf hne hpre
  rw [h] at this
  simp at this

theorem prefixTotal : ∀ (l₃ l₁ l₂ : List Char), l₁ <+: l₃ → l₂ <+: l₃ →
    l₁ <+: l₂ ∨ l₂ <+: l₁ := by
  intro l₃
  induction l₃ with
  | nil =>
    intro l₁ l₂ h1 _
    obtain ⟨t1, ht1⟩ := h1
    obtain ⟨rfl, -⟩ := List.append_eq_nil.mp ht1
    exact Or.inl ⟨l₂, rfl⟩
  | cons a l ih =>
    intro l₁ l₂ h1 h2
    cases l₁ with
    | nil => exact Or.inl ⟨l₂, rfl⟩
    | cons b lb =>
      cases l₂ with
      | nil => exact Or.inr ⟨b :: lb, rfl⟩
      | cons c lc =>
        obtain ⟨t1, ht1⟩ := h1
        obtain ⟨t2, ht2⟩ := h2
        simp only [List.cons_append, List.cons.injEq] at ht1 ht2
        obtain ⟨rfl, ht1⟩ := ht1
        obtain ⟨rfl, ht2⟩ := ht2
        rcases ih lb lc ⟨t1, ht1⟩ ⟨t2, ht2⟩ with ⟨u, hu⟩ | ⟨u, hu⟩
        · exact Or.inl ⟨u, by simp [hu]⟩
        · exact Or.inr ⟨u, by simp [hu]⟩

theorem findSeqFuel_nil (data : Lib) (fuel pos : Nat) :
    findSeqFuel data fuel pos [] = .ok [] := by
  cases fuel <;> simp [findSeqFuel]

theorem findCoreFuel_nil (data : Lib) (fuel pos : Nat) :
    findCoreFuel data fuel pos [] = .ok [] := by
  cases fuel <;> simp [findCoreFuel]

theorem findSeqFuel_eq_core (data : Lib) : ∀ (fuel pos : Nat) (s : Frag),
    findSeqFuel data fuel pos s = (findCoreFuel data fuel pos s).map (List.map Prod.fst) := by
  intro fuel
  induction fuel with
  | zero => intro pos s; simp [findSeqFuel, findCoreFuel, Except.map]
  | succ m ih =>
    intro pos s
    simp only [findSeqFuel, findCoreFuel]
    by_cases hs : s = []
    · simp [hs, Except.map]
    · simp only [if_neg hs]
      cases hpm : parentMatch data s with
      | none => simp [Except.map]
      | some x =>
        obtain ⟨id, f⟩ := x
        cases hc : findCoreFuel data m (pos + f.length) (s.drop f.length) <;>
          simp [Except.map, ih, hc]

end AutoLab

namespace AutoLab

/-! ### Round-trip of the greedy decomposition on prefix-free libraries -/

theorem coreRoundtrip (data : Lib) (hpf : PrefixFreeLib data) :
    ∀ fs : List Frag, (∀ f ∈ fs, f ∈ libFrags data) → (∀ f ∈ fs, f ≠ []) →
    ∀ fuel pos, fs.flatten.length ≤ fuel →
    (findCoreFuel data fuel pos fs.flatten).map (fun ps => (ps.map Prod.snd).flatten)
      = .ok fs.flatten := by
  intro fs
  induction fs with
  | nil => intro _ _ fuel pos _; simp [findCoreFuel_nil, Except.map]
  | cons f fs ih =>
    intro hmem hne fuel pos hfuel
    have hfmem : f ∈ libFrags data := hmem f (List.mem_cons_self _ _)
    have hfne : f ≠ [] := hne f (List.mem_cons_self _ _)
    have hflen : 0 < f.length := List.length_pos.mpr hfne
    rw [List.flatten_cons] at hfuel ⊢
    have hsne : f ++ fs.flatten ≠ [] := by
      intro hc
      exact hfne (List.append_eq_nil.mp hc).1
    obtain ⟨m, rfl⟩ : ∃ m, fuel = m + 1 := by
      cases fuel with
      | zero =>
        rw [List.length_append] at hfuel
        omega
      | succ m => exact ⟨m, rfl⟩
    have hpm : (parentMatch data (f ++ fs.flatten)).isSome :=
      parentMatch_isSome_of hfmem hfne ⟨fs.flatten, rfl⟩
    obtain ⟨⟨id, g⟩, hg⟩ := Option.isSome_iff_exists.mp hpm
    have hspec := parentMatch_some_spec hg
    have hgf : g = f := by
      rcases prefixTotal (f ++ fs.flatten) g f hspec.2.2 ⟨fs.flatten, rfl⟩ with hp | hp
      · by_contra hne'
        exact hpf g hspec.1 f hfmem ⟨hspec.2.1, hfne, hp, hne'⟩
      · by_contra hne'
        exact hpf f hfmem g hspec.1 ⟨hfne, hspec.2.1, hp, fun hc => hne' hc.symm⟩
    subst hgf
    simp only [findCoreFuel, if_neg hsne, hg]
    rw [List.drop_left]
    have hfuel' : fs.flatten.length ≤ m := by
      rw [List.length_append] at hfuel
      omega
    have ihm := ih (fun x hx => hmem x (List.mem_cons_of_mem _ hx))
      (fun x hx => hne x (List.mem_cons_of_mem _ hx)) m (pos + g.length) hfuel'
    cases hcf : findCoreFuel data m (pos + g.length) fs.flatten with
    | ok rest =>
      rw [hcf] at ihm
      simp only [Except.map, Except.map_ok] at ihm ⊢
      simp only [Except.ok.injEq] at ihm
      simp [ihm]
    | error e =>
      rw [hcf] at ihm
      simp [Except.map] at ihm

/-! ### Error propagation of the greedy decomposition -/

theorem GreedyReach_length {data : Lib} : ∀ {s s' : Frag},
    GreedyReach data s s' → s'.length ≤ s.length := by
  intro s s' h
  induction h with
  | refl => exact Nat.le_refl _
  | step hm _ ih =>
    refine Nat.le_trans ih ?_
    simp only [List.length_drop]
    omega

theorem findSeqFuel_error_of_reach {data : Lib} : ∀ {s s' : Frag},
    GreedyReach data s s' → s' ≠ [] → parentMatch data s' = none →
    ∀ fuel pos, s.length ≤ fuel →
    findSeqFuel data fuel pos s = .error (pos + (s.length - s'.length)) := by
  intro s s' hr
  induction hr with
  | refl s0 =>
    intro hne hnm fuel pos hfuel
    obtain ⟨m, rfl⟩ : ∃ m, fuel = m + 1 := by
      cases fuel with
      | zero =>
        have := List.length_pos.mpr hne
        omega
      | succ m => exact ⟨m, rfl⟩
    simp [findSeqFuel, if_neg hne, hnm]
  | step hm hr' ih =>
    rename_i s1 s2 id f
    intro hne hnm fuel pos hfuel
    have hspec := parentMatch_some_spec hm
    have hflen : 0 < f.length := List.length_pos.mpr hspec.2.1
    have hfle : f.length ≤ s1.length := hspec.2.2.length_le
    have hs1ne : s1 ≠ [] := by
      intro hc
      subst hc
      obtain ⟨t, ht⟩ := hspec.2.2
      exact hspec.2.1 (List.append_eq_nil.mp ht).1
    obtain ⟨m, rfl⟩ : ∃ m, fuel = m + 1 := by
      cases fuel with
      | zero =>
        have := List.length_pos.mpr hs1ne
        omega
      | succ m => exact ⟨m, rfl⟩
    have hs2len : s2.length ≤ (s1.drop f.length).length := GreedyReach_length hr'
    rw [List.length_drop] at hs2len
    have ihm := ih hne hnm m (pos + f.length) (by rw [List.length_drop]; omega)
    simp only [findSeqFuel, if_neg hs1ne, hm, ihm]
    rw [List.length_drop] at ihm ⊢
    congr 1
    omega

end AutoLab

namespace AutoLab

/-! ### First-match characterization of the scan order -/

theorem fragMatch_none_of : ∀ (fs : List Frag) (s : Frag),
    (∀ j f, fs.get? j = some f → f = [] ∨ ¬ f <+: s) →
    ∀ i, fragMatch s i fs = none := by
  intro fs
  induction fs with
  | nil => intro s _ i; simp [fragMatch]
  | cons a as ih =>
    intro s hbad i
    have ha := hbad 0 a rfl
    have hc : ¬(a ≠ [] ∧ a <+: s) := by
      rcases ha with ha | ha
      · exact fun hx => hx.1 ha
      · exact fun hx => ha hx.2
    simp only [fragMatch, if_neg hc]
    exact ih s (fun j f hj => hbad (j + 1) f hj) (i + 1)

theorem fragMatch_ofFirst : ∀ (fs : List Frag) (s f : Frag) (j : Nat),
    fs.get? j = some f → f ≠ [] → f <+: s →
    (∀ j' f', j' < j → fs.get? j' = some f' → f' = [] ∨ ¬ f' <+: s) →
    ∀ i, fragMatch s i fs = some (i + j, f) := by
  intro fs
  induction fs with
  | nil => intro s f j hj; simp at hj
  | cons a as ih =>
    intro s f j hj hfne hfpre hmin i
    cases j with
    | zero =>
      simp only [List.get?_cons_zero, Option.some.injEq] at hj
      subst hj
      simp only [fragMatch]
      rw [if_pos (And.intro hfne hfpre)]
      rfl
    | succ j' =>
      have ha := hmin 0 a (Nat.succ_pos _) rfl
      have hc : ¬(a ≠ [] ∧ a <+: s) := by
        rcases ha with ha | ha
        · exact fun hx => hx.1 ha
        · exact fun hx => ha hx.2
      simp only [fragMatch, if_neg hc]
      have := ih s f j' hj hfne hfpre
        (fun j'' f'' hlt hg => hmin (j'' + 1) f'' (Nat.succ_lt_succ hlt) hg) (i + 1)
      have harith : i + 1 + j' = i + (j' + 1) := by omega
      rw [this, harith]

theorem parentMatch_ofFirst : ∀ (data : Lib) (s : Frag) (i j : Nat) (p : String)
    (fs : List Frag) (f : Frag),
    data.get? i = some (p, fs) → fs.get? j = some f → f ≠ [] → f <+: s →
    (∀ j' f', j' < j → fs.get? j' = some f' → f' = [] ∨ ¬ f' <+: s) →
    (∀ i' p' fs', i' < i → data.get? i' = some (p', fs') →
      ∀ j' f', fs'.get? j' = some f' → f' = [] ∨ ¬ f' <+: s) →
    parentMatch data s = some (mkFragId p j, f) := by
  intro data
  induction data with
  | nil => intro s i j p fs f hi; simp at hi
  | cons hd rest ih =>
    intro s i j p fs f hi hj hfne hfpre hminj hmini
    obtain ⟨p0, fs0⟩ := hd
    cases i with
    | zero =>
      simp only [List.get?_cons_zero, Option.some.injEq, Prod.mk.injEq] at hi
      obtain ⟨rfl, rfl⟩ := hi
      have hfm := fragMatch_ofFirst fs0 s f j hj hfne hfpre hminj 0
      simp [parentMatch, hfm]
    | succ i' =>
      have hnone : fragMatch s 0 fs0 = none :=
        fragMatch_none_of fs0 s (hmini 0 p0 fs0 (Nat.succ_pos _) rfl) 0
      simp only [parentMatch, hnone]
      exact ih s i' j p fs f hi hj hfne hfpre hminj
        (fun i'' p'' fs'' hlt hg => hmini (i'' + 1) p'' fs'' (Nat.succ_lt_succ hlt) hg)

end AutoLab

namespace AutoLab

/-! ### Claims about the decomposer -/

/-- Claim C1 (corrected): when the library's nonempty fragments form a
prefix code, every target that is an exact concatenation of nonempty
library fragments is decomposed successfully, and the fragment strings
matched by the scan concatenate back to the target exactly;
`find_sequence_fragments` returns the corresponding identifier list.
Without the prefix-code hypothesis the claim fails
(`C1_roundtrip_cex`): greedy first-match can consume a fragment that
makes the rest of the target untileable. -/
theorem C1_roundtrip (data : Lib) (fs : List Frag)
    (hpf : PrefixFreeLib data)
    (hmem : ∀ f ∈ fs, f ∈ libFrags data)
    (hne : ∀ f ∈ fs, f ≠ []) :
    (findFragsCore data fs.flatten).map (fun ps => (ps.map Prod.snd).flatten)
      = .ok fs.flatten
    ∧ find_sequence_fragments data fs.flatten
      = (findFragsCore data fs.flatten).map (List.map Prod.fst) := by
  constructor
  · exact coreRoundtrip data hpf fs hmem hne fs.flatten.length 0 (Nat.le_refl _)
  · exact findSeqFuel_eq_core data fs.flatten.length 0 fs.flatten

/-- Witness for `C1_roundtrip`: library `{p1: ["AAA", "CCC"]}` and
target `"AAACCC"`. -/
theorem C1_roundtrip_witness :
    (findFragsCore [("p1", [['A','A','A'], ['C','C','C']])]
        (([['A','A','A'], ['C','C','C']] : List Frag).flatten)).map
        (fun ps => (ps.map Prod.snd).flatten)
      = .ok (([['A','A','A'], ['C','C','C']] : List Frag).flatten)
    ∧ find_sequence_fragments [("p1", [['A','A','A'], ['C','C','C']])]
        (([['A','A','A'], ['C','C','C']] : List Frag).flatten)
      = (findFragsCore [("p1", [['A','A','A'], ['C','C','C']])]
          (([['A','A','A'], ['C','C','C']] : List Frag).flatten)).map (List.map Prod.fst) :=
  C1_roundtrip _ _ (by decide) (by decide) (by decide)

/-- Counterexample to claim C1 as stated: with library
`{p1: ["AA", "AAA"]}` the target `"AAA"` is an exact concatenation of
the (nonempty) library fragment `"AAA"`, yet `find_sequence_fragments`
fails with position 2: the greedy scan first consumes `"AA"` and is
then stuck on the suffix `"A"`. -/
theorem C1_roundtrip_cex :
    ['A','A','A'] ∈ libFrags [("p1", [['A','A'], ['A','A','A']])]
    ∧ (['A','A','A'] : Frag).isEmpty = false
    ∧ ([['A','A','A']] : List Frag).flatten = ['A','A','A']
    ∧ find_sequence_fragments [("p1", [['A','A'], ['A','A','A']])] ['A','A','A']
      = .error 2 :=
  ⟨by decide, rfl, rfl, rfl⟩

/-- Claim C6 (corrected): whenever the greedy scan actually reaches a
nonempty suffix `r` of the target (the fragments consumed so far tile
the target exactly up to position `t.length - r.length`) and no
nonempty library fragment is a prefix of `r`, the decomposition fails
with exactly that position, and — being an `Except.error` — returns no
partial tiling.  The original claim quantified over *all* positions at
which some tiling gets stuck, which is refuted by `C6_nomatch_cex`. -/
theorem C6_nomatch (data : Lib) (t r : Frag) (h1 : GreedyReach data t r) (h2 : r ≠ [])
    (h3 : ∀ f ∈ libFrags data, ¬(f ≠ [] ∧ f <+: r)) :
    find_sequence_fragments data t = .error (t.length - r.length) := by
  have hnm : parentMatch data r = none := by
    cases hpm : parentMatch data r with
    | none => rfl
    | some x =>
      obtain ⟨id, f⟩ := x
      have hspec := parentMatch_some_spec hpm
      exact absurd ⟨hspec.2.1, hspec.2.2⟩ (h3 f hspec.1)
  have h := findSeqFuel_error_of_reach h1 h2 hnm t.length 0 (Nat.le_refl _)
  simpa [find_sequence_fragments] using h

/-- Witness for `C6_nomatch`: library `{p1: ["AAA"]}` and target
`"AAAB"`; the scan consumes `"AAA"` and fails at position 3. -/
theorem C6_nomatch_witness :
    find_sequence_fragments [("p1", [['A','A','A']])] ['A','A','A','B'] = .error 3 :=
  C6_nomatch _ _ ['B'] (GreedyReach.step rfl (GreedyReach.refl _)) (by decide) (by decide)

/-- Counterexample to claim C6 as stated: with library
`{p1: ["AB", "A"]}` and target `"AB"`, the fragment `"A"` tiles the
target exactly up to position 1 and no library fragment matches the
suffix `"B"` starting at position 1 (`parentMatch` on it is `none`),
yet decomposition does not fail at position 1 — it succeeds, because
the greedy scan consumed `"AB"` instead. -/
theorem C6_nomatch_cex :
    ([['A']] : List Frag).flatten = (['A','B'] : Frag).take 1
    ∧ ['A'] ∈ libFrags [("p1", [['A','B'], ['A']])]
    ∧ (['A'] : Frag).isEmpty = false
    ∧ parentMatch [("p1", [['A','B'], ['A']])] ((['A','B'] : Frag).drop 1) = none
    ∧ find_sequence_fragments [("p1", [['A','B'], ['A']])] ['A','B'] = .ok ["p1f0"] :=
  ⟨rfl, by decide, rfl, rfl, rfl⟩

/-- Claim C10 (confirmed): decomposition is deterministic — equal
libraries (same rows in the same order) and equal targets yield
identical results — and the scan always takes the first match in scan
order: whenever `(i, j)` is the first matching library cell for the
current suffix, `parentMatch` returns exactly that cell's identifier
and fragment. -/
theorem C10_deterministic :
    (∀ (d₁ d₂ : Lib) (s₁ s₂ : Frag), d₁ = d₂ → s₁ = s₂ →
      find_sequence_fragments d₁ s₁ = find_sequence_fragments d₂ s₂)
    ∧ (∀ (data : Lib) (s : Frag) (i j : Nat) (p : String) (fs : List Frag) (f : Frag),
      FirstMatchAt data s i j f → data.get? i = some (p, fs) →
      parentMatch data s = some (mkFragId p j, f)) := by
  constructor
  · intro d₁ d₂ s₁ s₂ h1 h2
    rw [h1, h2]
  · intro data s i j p fs f hfm hi
    obtain ⟨⟨p₁, fs₁, hi₁, hj₁, hne₁, hpre₁⟩, hmin⟩ := hfm
    rw [hi] at hi₁
    simp only [Option.some.injEq, Prod.mk.injEq] at hi₁
    obtain ⟨rfl, rfl⟩ := hi₁
    apply parentMatch_ofFirst data s i j p fs f hi hj₁ hne₁ hpre₁
    · intro j' f' hlt hg
      by_contra hcon
      push_neg at hcon
      obtain ⟨hcne, hcpre⟩ := hcon
      rcases hmin i j' f' ⟨p, fs, hi, hg, hcne, hcpre⟩ with hbad | ⟨-, hbad⟩
      · exact absurd hbad (lt_irrefl i)
      · omega
    · intro i' p' fs' hlt hg j' f' hg'
      by_contra hcon
      push_neg at hcon
      obtain ⟨hcne, hcpre⟩ := hcon
      rcases hmin i' j' f' ⟨p', fs', hg, hg', hcne, hcpre⟩ with hbad | ⟨hbad, -⟩
      · omega
      · omega

/-- Witness for `C10_deterministic`: library `{p1: ["A"]}` and target
`"A"`; cell `(0, 0)` is the first match. -/
theorem C10_deterministic_witness :
    find_sequence_fragments [("p1", [(['A'] : Frag)])] ['A']
      = find_sequence_fragments [("p1", [(['A'] : Frag)])] ['A']
    ∧ parentMatch [("p1", [(['A'] : Frag)])] ['A'] = some (mkFragId "p1" 0, ['A']) :=
  ⟨C10_deterministic.1 _ _ _ _ rfl rfl,
   C10_deterministic.2 [("p1", [(['A'] : Frag)])] ['A'] 0 0 "p1" [['A']] ['A']
     ⟨⟨"p1", [['A']], rfl, rfl, by decide, by decide⟩,
      fun i' j' f' _ => by
        cases i' with
        | zero => exact Or.inr ⟨rfl, Nat.zero_le _⟩
        | succ n => exact Or.inl (Nat.succ_pos n)⟩
     rfl⟩

end AutoLab

namespace AutoLab

/-! ### Worklist generation -/

theorem rowsFor_length : ∀ (ws : List (List Char)) (dest : List Char) (idx : Nat),
    (rowsFor dest ws idx).length = ws.length := by
  intro ws
  induction ws with
  | nil => intro dest idx; rfl
  | cons w ws ih => intro dest idx; simp [rowsFor, ih]

theorem rowsFor_map_index : ∀ (ws : List (List Char)) (dest : List Char) (idx : Nat),
    (rowsFor dest ws idx).map WRow.Index
      = (List.range ws.length).map (fun j => pad2 (idx + j)) := by
  intro ws
  induction ws with
  | nil => intro dest idx; rfl
  | cons w ws ih =>
    intro dest idx
    simp only [rowsFor, List.map_cons, List.length_cons, ih]
    rw [List.range_succ_eq_map, List.map_cons, List.map_map, Nat.add_zero]
    congr 1
    apply List.map_congr_left
    intro j _
    simp only [Function.comp_apply, Nat.succ_eq_add_one]
    congr 1
    omega

theorem rowsFor_map_source : ∀ (ws : List (List Char)) (dest : List Char) (idx : Nat),
    (rowsFor dest ws idx).map WRow.Source_Well = ws.map format_well := by
  intro ws
  induction ws with
  | nil => intro dest idx; rfl
  | cons w ws ih => intro dest idx; simp [rowsFor, ih]

theorem rowsFor_map_dest : ∀ (ws : List (List Char)) (dest : List Char) (idx : Nat),
    (rowsFor dest ws idx).map WRow.Destination_Well = List.replicate ws.length dest := by
  intro ws
  induction ws with
  | nil => intro dest idx; rfl
  | cons w ws ih => intro dest idx; simp [rowsFor, ih, List.replicate_succ]

theorem write_rows_spec : ∀ (ws : List (List (List Char))) (seqNum idx : Nat),
    (∀ w ∈ ws, w.length = 8) →
    (∀ s, s < ws.length → (get_destination_well (seqNum + s)).isSome) →
    (write_worklist_rows ws seqNum idx).map List.length = .ok (8 * ws.length)
    ∧ (write_worklist_rows ws seqNum idx).map (fun rows => rows.map WRow.Index)
      = .ok ((List.range (8 * ws.length)).map (fun j => pad2 (idx + j)))
    ∧ (write_worklist_rows ws seqNum idx).map (fun rows => rows.map WRow.Source_Well)
      = .ok (ws.flatten.map format_well)
    ∧ (write_worklist_rows ws seqNum idx).map (fun rows => rows.map WRow.Destination_Well)
      = .ok (((List.range ws.length).map
          (fun s => List.replicate 8 ((get_destination_well (seqNum + s)).getD []))).flatten) := by
  intro ws
  induction ws with
  | nil =>
    intro seqNum idx _ _
    simp [write_worklist_rows, Except.map]
  | cons wells rest ih =>
    intro seqNum idx hlen hdest
    have hw8 : wells.length = 8 := hlen wells (List.mem_cons_self _ _)
    have hd0 : (get_destination_well (seqNum + 0)).isSome :=
      hdest 0 (Nat.succ_pos _)
    rw [Nat.add_zero] at hd0
    obtain ⟨dest, hd⟩ := Option.isSome_iff_exists.mp hd0
    have ihm := ih (seqNum + 1) (idx + 8)
      (fun w hw => hlen w (List.mem_cons_of_mem _ hw))
      (fun s hs => by
        have := hdest (s + 1) (Nat.succ_lt_succ hs)
        rwa [show seqNum + (s + 1) = seqNum + 1 + s by omega] at this)
    simp only [write_worklist_rows, hw8, if_neg (by omega : ¬(8 : Nat) ≠ 8), hd]
    cases hrec : write_worklist_rows rest (seqNum + 1) (idx + 8) with
    | error e =>
      rw [hrec] at ihm
      simp [Except.map] at ihm
    | ok rs =>
      rw [hrec] at ihm
      simp only [Except.map, Except.ok.injEq] at ihm
      obtain ⟨ihlen, ihidx, ihsrc, ihdst⟩ := ihm
      refine ⟨?_, ?_, ?_, ?_⟩
      · simp only [Except.map, Except.ok.injEq, List.length_append, rowsFor_length,
          hw8, ihlen, List.length_cons]
        omega
      · simp only [Except.map, Except.ok.injEq, List.map_append, rowsFor_map_index,
          hw8, ihidx, List.length_cons]
        rw [show 8 * (rest.length + 1) = 8 + 8 * rest.length by omega, List.range_add,
          List.map_append, List.map_map]
        congr 1
        apply List.map_congr_left
        intro j _
        simp [Function.comp_apply, Nat.add_assoc]

      · simp only [Except.map, Except.ok.injEq, List.map_append, rowsFor_map_source,
          ihsrc, List.flatten_cons]
      · simp only [Except.map, Except.ok.injEq, List.map_append, rowsFor_map_dest,
          hw8, ihdst, List.length_cons, List.range_succ_eq_map, List.map_cons,
          List.flatten_cons, List.map_map, Nat.add_zero, hd, Option.getD_some,
          Nat.succ_eq_add_one]
        congr 1
        congr 1
        apply List.map_congr_left
        intro s _
        simp only [Function.comp_apply, Nat.succ_eq_add_one]
        rw [show seqNum + 1 + s = seqNum + (s + 1) by omega]

end AutoLab

namespace AutoLab

/-- Claim C3 (corrected): on `n ≤ 3` targets of exactly 8 fragment
wells each, `write_worklist` produces exactly `8 * n` rows whose
`Index` fields are the zero-padded renderings of `1 .. 8*n` in
ascending order, whose source wells are the targets' wells in target
order then fragment order (rows grouped by target rank), and whose
destination wells are, for each target, 8 copies of the destination
fixed by that target's rank.  For `n ≥ 4` the static destination table
has no entry and the build fails (`C3_worklist_cex`), so the
unrestricted claim is false. -/
theorem C3_worklist (all_wells : List (List (List Char)))
    (hlen : ∀ w ∈ all_wells, w.length = 8) (hn : all_wells.length ≤ 3) :
    (write_worklist all_wells).map List.length = .ok (8 * all_wells.length)
    ∧ (write_worklist all_wells).map (fun rows => rows.map WRow.Index)
      = .ok ((List.range (8 * all_wells.length)).map (fun j => pad2 (j + 1)))
    ∧ (write_worklist all_wells).map (fun rows => rows.map WRow.Source_Well)
      = .ok (all_wells.flatten.map format_well)
    ∧ (write_worklist all_wells).map (fun rows => rows.map WRow.Destination_Well)
      = .ok (((List.range all_wells.length).map
          (fun s => List.replicate 8 ((get_destination_well (s + 1)).getD []))).flatten) := by
  have hdest : ∀ s, s < all_wells.length → (get_destination_well (1 + s)).isSome := by
    intro s hs
    have hs3 : s < 3 := lt_of_lt_of_le hs hn
    interval_cases s <;> rfl
  obtain ⟨h1, h2, h3, h4⟩ := write_rows_spec all_wells 1 1 hlen hdest
  simp only [write_worklist]
  refine ⟨h1, ?_, h3, ?_⟩
  · rw [h2]
    congr 1
    apply List.map_congr_left
    intro j _
    rw [Nat.add_comm 1 j]
  · rw [h4]
    congr 1
    congr 1
    apply List.map_congr_left
    intro s _
    rw [Nat.add_comm 1 s]

/-- Witness for `C3_worklist`: two targets of 8 wells each yield 16
rows. -/
theorem C3_worklist_witness :
    (write_worklist [List.replicate 8 (['B','3'] : List Char),
        List.replicate 8 (['C','4'] : List Char)]).map List.length = .ok 16 :=
  (C3_worklist _ (by decide) (by decide)).1

/-- Counterexample to claim C3 as stated: four targets of exactly 8
fragment wells each — the static destination table has no entry for
rank 4, so `write_worklist` raises `KeyError` and produces no rows at
all. -/
theorem C3_worklist_cex :
    (List.replicate 4 (List.replicate 8 (['B','3'] : List Char))).all
        (fun ws => ws.length == 8) = true
    ∧ write_worklist (List.replicate 4 (List.replicate 8 (['B','3'] : List Char)))
      = .error "KeyError: 4" :=
  ⟨rfl, rfl⟩

end AutoLab

namespace AutoLab

/-! ### Orchestrator state machine -/

theorem labStep_mutex (s : LabSt) (e : LabEvent) (h : (s.seqMon && s.plateMon) = false) :
    ((labStep s e).seqMon && (labStep s e).plateMon) = false := by
  cases e with
  | seqModified hb genOk =>
    simp only [labStep, seqStep]
    by_cases hm : s.seqMon
    · cases genOk <;> simp_all
    · simp_all
  | plateModified hb procOk =>
    simp only [labStep, plateStep]
    by_cases hm : s.plateMon
    · by_cases hh : s.lastPlateHash = some hb
      · simp_all
      · cases procOk <;> simp_all
    · simp_all

theorem foldl_mutex : ∀ (evs : List LabEvent) (s : LabSt), (s.seqMon && s.plateMon) = false →
    ((evs.foldl labStep s).seqMon && (evs.foldl labStep s).plateMon) = false := by
  intro evs
  induction evs with
  | nil => intro s hs; simpa using hs
  | cons e evs ih =>
    intro s hs
    exact ih (labStep s e) (labStep_mutex s e hs)

/-- Claim C2 (confirmed): across every run trace of the orchestrator —
every serialized list of file-change notifications processed from the
initial state — the sequence-file watch and the plate-data watch are
never both active at the same time.  (The sequence watch is stopped
inside `generate_lab_files` before `start_plate_monitoring` runs, and
`process_and_transfer` stops the plate watch before restarting
sequence monitoring.) -/
theorem C2_watch_mutex (evs : List LabEvent) :
    ((labRun evs).seqMon && (labRun evs).plateMon) = false :=
  foldl_mutex evs initSt rfl

/-- Claim C4 (corrected): content-hash debouncing exists only in the
plate-data handler.  A plate-data modification whose hash equals
`last_processed_hash` causes no state change at all; but the sequence
handler runs a generation cycle on every matching modification event,
regardless of content — `SequenceHandler.on_modified` has no hash
check — as `C4_debounce_cex` shows on a duplicate-content event. -/
theorem C4_debounce :
    (∀ (s : LabSt) (h : Nat) (genOk : Bool), s.seqMon = true →
      (seqStep s h genOk).genCount = s.genCount + 1 ∧ (seqStep s h genOk).lastSeqHash = some h)
    ∧ ∀ (s : LabSt) (h : Nat) (procOk : Bool), s.lastPlateHash = some h →
      plateStep s h procOk = s := by
  constructor
  · intro s h genOk hs
    cases genOk <;> simp [seqStep, hs]
  · intro s h procOk hp
    simp [plateStep, hp]

/-- Witness for `C4_debounce` at the initial state and a state holding
plate hash 7. -/
theorem C4_debounce_witness :
    ((seqStep initSt 7 true).genCount = initSt.genCount + 1
      ∧ (seqStep initSt 7 true).lastSeqHash = some 7)
    ∧ plateStep ⟨.EXPERIMENTING, false, true, some 7, some 3, 1⟩ 7 true
      = ⟨.EXPERIMENTING, false, true, some 7, some 3, 1⟩ :=
  ⟨C4_debounce.1 initSt 7 true rfl,
   C4_debounce.2 _ 7 true rfl⟩

/-- Counterexample to claim C4 as stated: after processing a sequence
event with content hash 5 (generation fails, hash 5 recorded as last
processed), a second sequence event with the *same* hash 5 still runs
another generation cycle (`genCount` 1 → 2) and still causes a
transition (status goes to `EXPERIMENTING` when generation succeeds),
because `SequenceHandler.on_modified` never compares hashes. -/
theorem C4_debounce_cex :
    (labRun [.seqModified 5 false]).lastSeqHash = some 5
    ∧ (labRun [.seqModified 5 false]).genCount = 1
    ∧ (labRun [.seqModified 5 false]).status = .SEQUENCE_RECEIVED
    ∧ (labRun [.seqModified 5 false, .seqModified 5 true]).genCount = 2
    ∧ (labRun [.seqModified 5 false, .seqModified 5 true]).status = .EXPERIMENTING := by
  decide

/-- Claim C5 (corrected): when any step of the generation cycle fails
while in `SequenceReceived`, monitoring is indeed left unchanged (the
sequence watch stays active and no plate watch is started), but the
orchestrator does *not* transition to `Error`: `generate_lab_files`
catches the exception and returns `False`, and `on_modified` then
simply leaves the status at `SEQUENCE_RECEIVED`
(see `C5_failure_cex`). -/
theorem C5_failure (s : LabSt) (h : Nat) (hs : s.seqMon = true) :
    (seqStep s h false).status = .SEQUENCE_RECEIVED
    ∧ (seqStep s h false).seqMon = true
    ∧ (seqStep s h false).plateMon = s.plateMon := by
  simp [seqStep, hs]

/-- Witness for `C5_failure` at the initial state. -/
theorem C5_failure_witness :
    (seqStep initSt 1 false).status = .SEQUENCE_RECEIVED
    ∧ (seqStep initSt 1 false).seqMon = true
    ∧ (seqStep initSt 1 false).plateMon = initSt.plateMon :=
  C5_failure initSt 1 rfl

/-- Counterexample to claim C5 as stated: a failing generation cycle
from the initial state leaves the orchestrator in `SEQUENCE_RECEIVED`,
not in the `Error` state the claim requires. -/
theorem C5_failure_cex :
    (labRun [.seqModified 1 false]).status = .SEQUENCE_RECEIVED
    ∧ ((labRun [.seqModified 1 false]).status == LabState.ERROR) = false := by
  decide

end AutoLab

namespace AutoLab

/-! ### Inventory ledger -/

theorem lookup_updateEntry_self : ∀ (inv : Inventory) (fid : String) (e : Entry)
    (u : Entry → Entry), inv.lookup fid = some e →
    (updateEntry inv fid u).lookup fid = some (u e) := by
  intro inv
  induction inv with
  | nil => intro fid e u h; simp [List.lookup] at h
  | cons he rest ih =>
    intro fid e u h
    obtain ⟨g, e0⟩ := he
    by_cases hg : g = fid
    · subst hg
      simp only [List.lookup, beq_self_eq_true] at h ⊢
      simp only [Option.some.injEq] at h
      subst h
      simp only [updateEntry, if_pos rfl, List.lookup, beq_self_eq_true]
    · have hbeq : (fid == g) = false := by
        simp only [beq_eq_false_iff_ne, ne_eq]
        exact fun hc => hg hc.symm
      simp only [List.lookup, hbeq] at h
      simp only [updateEntry, if_neg hg, List.lookup, hbeq]
      exact ih fid e u h

theorem lookup_mem : ∀ (inv : Inventory) (fid : String) (e : Entry),
    inv.lookup fid = some e → (fid, e) ∈ inv := by
  intro inv
  induction inv with
  | nil => intro fid e h; simp [List.lookup] at h
  | cons he rest ih =>
    intro fid e h
    obtain ⟨g, e0⟩ := he
    cases hbeq : fid == g with
    | true =>
      have hg : fid = g := eq_of_beq hbeq
      simp only [List.lookup, hbeq, Option.some.injEq] at h
      subst hg
      subst h
      exact List.mem_cons_self _ _
    | false =>
      simp only [List.lookup, hbeq] at h
      exact List.mem_cons_of_mem _ (ih fid e h)

theorem update_volumes_single (inv : Inventory) (w : List Char) (v : ℚ) (ts : Nat) :
    update_volumes inv [(w, v)] ts = debitRow inv w v ts := rfl

theorem debitRow_resolved (inv : Inventory) (w : List Char) (v : ℚ) (ts : Nat)
    (fid : String) (hres : resolveWell inv w = some fid) :
    debitRow inv w v ts = updateEntry inv fid (fun e => debitEntry e v ts) := by
  simp [debitRow, hres]

theorem refill_dna_tracked (inv : Inventory) (fid : String) (v : ℚ) (ts : Nat)
    (h : (inv.lookup fid).isSome) :
    refill_dna inv (some fid) none v ts
      = updateEntry inv fid (fun e => creditEntry e v ts) := by
  simp [refill_dna, h]

theorem mem_inventory_report : ∀ (inv : Inventory) (fid : String) (e : Entry),
    (fid, e) ∈ inv →
    ({ id := fid, well := e.well, volume := e.volume, status := entryStatus e } : ReportRow)
      ∈ inventory_report inv := by
  intro inv fid e h
  have hperm : (inv.mergeSort (fun a b => a.1 ≤ b.1)).Perm inv := List.mergeSort_perm inv _
  exact List.mem_map_of_mem _ (hperm.mem_iff.mpr h)

theorem report_status_iff : ∀ (inv : Inventory), ∀ row ∈ inventory_report inv,
    (row.status = "LOW" ↔ row.volume < 50) := by
  intro inv row hrow
  simp only [inventory_report, List.mem_map] at hrow
  obtain ⟨x, hx, rfl⟩ := hrow
  simp only [entryStatus]
  split
  · rename_i hlt
    simpa using hlt
  · rename_i hge
    constructor
    · intro hc
      exact absurd hc (by decide)
    · intro hc
      exact absurd hc hge

theorem resolveWell_congr (inv : Inventory) (w₁ w₂ : List Char)
    (h : ∀ x, x ∈ get_well_formats w₁ ↔ x ∈ get_well_formats w₂) :
    resolveWell inv w₁ = resolveWell inv w₂ := by
  induction inv with
  | nil => rfl
  | cons he rest ih =>
    obtain ⟨g, e⟩ := he
    simp only [resolveWell]
    by_cases hm : e.well ∈ get_well_formats w₁
    · rw [if_pos hm, if_pos ((h e.well).mp hm)]
    · rw [if_neg hm, if_neg (fun hc => hm ((h e.well).mpr hc)), ih]

theorem resolveWell_updateEntry (inv : Inventory) (fid : String) (u : Entry → Entry)
    (w : List Char) (hu : ∀ e, (u e).well = e.well) :
    resolveWell (updateEntry inv fid u) w = resolveWell inv w := by
  induction inv with
  | nil => rfl
  | cons he rest ih =>
    obtain ⟨g, e⟩ := he
    simp only [updateEntry]
    by_cases hg : g = fid
    · rw [if_pos hg]
      simp only [resolveWell, hu e]
    · rw [if_neg hg]
      simp only [resolveWell, ih]

theorem refill_dna_by_well (inv : Inventory) (w : List Char) (v : ℚ) (ts : Nat)
    (w' : List Char) :
    resolveWell (refill_dna inv none (some w) v ts) w' = resolveWell inv w' := by
  simp only [refill_dna, Option.isSome_none, Option.isSome_some, Bool.false_eq_true,
    false_or, if_pos, Option.some_bind]
  cases hr : resolveWell inv w with
  | none => simp [hr]
  | some fid =>
    simp only [hr]
    exact resolveWell_updateEntry inv fid _ w' (fun e => rfl)

theorem digitsVal_natDigits : ∀ n, n < 100 → digitsVal (natDigits n) = n := by decide

theorem digitsVal_pad2 : ∀ n, n < 100 → digitsVal (pad2 n) = n := by decide

theorem get_well_formats_mem_iff (r : Char) (n : Nat) (hn : n < 100) (x : List Char) :
    x ∈ get_well_formats (r :: natDigits n) ↔ x ∈ get_well_formats (r :: pad2 n) := by
  simp only [get_well_formats, digitsVal_natDigits n hn, digitsVal_pad2 n hn,
    List.mem_cons, List.not_mem_nil, or_false]
  tauto

end AutoLab

namespace AutoLab

/-- Claim C7 (confirmed): for a tracked entry (resolved by the debit's
well scan and present under its fragment id) and any amount `v`, a
debit of `v` followed by a credit of `v` restores `volume_remaining`
to its value before the debit; the debit appends exactly one history
event and the credit exactly one more (so history grows by exactly two
overall), and the events carry the running volumes. -/
theorem C7_debit_credit (inv : Inventory) (fid : String) (e : Entry) (w : List Char)
    (v : ℚ) (ts1 ts2 : Nat)
    (hres : resolveWell inv w = some fid)
    (hlook : inv.lookup fid = some e) :
    (update_volumes inv [(w, v)] ts1).lookup fid = some (debitEntry e v ts1)
    ∧ (refill_dna (update_volumes inv [(w, v)] ts1) (some fid) none v ts2).lookup fid
      = some (creditEntry (debitEntry e v ts1) v ts2)
    ∧ (creditEntry (debitEntry e v ts1) v ts2).volume = e.volume
    ∧ (debitEntry e v ts1).history.length = e.history.length + 1
    ∧ (creditEntry (debitEntry e v ts1) v ts2).history.length = e.history.length + 2 := by
  have h1 : (update_volumes inv [(w, v)] ts1).lookup fid = some (debitEntry e v ts1) := by
    rw [update_volumes_single, debitRow_resolved inv w v ts1 fid hres]
    exact lookup_updateEntry_self inv fid e _ hlook
  refine ⟨h1, ?_, ?_, ?_, ?_⟩
  · rw [refill_dna_tracked _ _ _ _ (by rw [h1]; rfl)]
    exact lookup_updateEntry_self _ fid (debitEntry e v ts1) _ h1
  · simp only [creditEntry, debitEntry]
    ring
  · simp [debitEntry]
  · simp [creditEntry, debitEntry]

/-- Witness for `C7_debit_credit`: debit 5 then credit 5 on the single
entry `p1f0` in well `B03` initially holding 200 µL. -/
theorem C7_debit_credit_witness :
    (update_volumes [("p1f0", (⟨['B','0','3'], 200, []⟩ : Entry))] [(['B','0','3'], 5)] 0).lookup
        "p1f0" = some (debitEntry ⟨['B','0','3'], 200, []⟩ 5 0)
    ∧ (creditEntry (debitEntry ⟨['B','0','3'], 200, []⟩ 5 0) 5 1).volume = (200 : ℚ) :=
  ⟨(C7_debit_credit [("p1f0", (⟨['B','0','3'], 200, []⟩ : Entry))] "p1f0"
      ⟨['B','0','3'], 200, []⟩ ['B','0','3'] 5 0 1 rfl rfl).1,
   (C7_debit_credit [("p1f0", (⟨['B','0','3'], 200, []⟩ : Entry))] "p1f0"
      ⟨['B','0','3'], 200, []⟩ ['B','0','3'] 5 0 1 rfl rfl).2.2.1⟩

/-- Claim C8 (confirmed): a debit never clamps — debiting `v` from an
entry holding `r` leaves exactly `r - v`, also when `v > r` and the
result is negative; in that case the entry's report status is `LOW`
(its volume is below the threshold 50) and the inventory report lists
it with that volume and status; in general a report row's status is
`LOW` exactly when its volume is below 50 and `OK` otherwise. -/
theorem C8_no_clamp (inv : Inventory) (fid : String) (e : Entry) (w : List Char)
    (v : ℚ) (ts : Nat)
    (hres : resolveWell inv w = some fid)
    (hlook : inv.lookup fid = some e) :
    (update_volumes inv [(w, v)] ts).lookup fid = some (debitEntry e v ts)
    ∧ (debitEntry e v ts).volume = e.volume - v
    ∧ (v > e.volume → entryStatus (debitEntry e v ts) = "LOW")
    ∧ (e.volume - v < 50 →
        ({ id := fid, well := e.well, volume := e.volume - v, status := "LOW" } : ReportRow)
          ∈ inventory_report (update_volumes inv [(w, v)] ts))
    ∧ (∀ inv' : Inventory, ∀ row ∈ inventory_report inv',
        (row.status = "LOW" ↔ row.volume < 50)) := by
  have h1 : (update_volumes inv [(w, v)] ts).lookup fid = some (debitEntry e v ts) := by
    rw [update_volumes_single, debitRow_resolved inv w v ts fid hres]
    exact lookup_updateEntry_self inv fid e _ hlook
  refine ⟨h1, rfl, ?_, ?_, ?_⟩
  · intro hv
    have hlt : e.volume - v < 50 := by linarith
    simp [entryStatus, debitEntry, hlt]
  · intro hlt
    have hmem : (fid, debitEntry e v ts) ∈ update_volumes inv [(w, v)] ts :=
      lookup_mem _ _ _ h1
    have hrep := mem_inventory_report _ _ _ hmem
    have hst : entryStatus (debitEntry e v ts) = "LOW" := by
      simp [entryStatus, debitEntry, hlt]
    simpa [hst] using hrep
  · exact report_status_iff

/-- Witness for `C8_no_clamp`: debiting 250 µL from a 200 µL entry. -/
theorem C8_no_clamp_witness :
    (update_volumes [("p1f0", (⟨['B','0','3'], 200, []⟩ : Entry))] [(['B','0','3'], 250)] 0).lookup
        "p1f0" = some (debitEntry ⟨['B','0','3'], 200, []⟩ 250 0)
    ∧ (debitEntry (⟨['B','0','3'], 200, []⟩ : Entry) 250 0).volume = (200 : ℚ) - 250 :=
  ⟨(C8_no_clamp [("p1f0", (⟨['B','0','3'], 200, []⟩ : Entry))] "p1f0"
      ⟨['B','0','3'], 200, []⟩ ['B','0','3'] 250 0 rfl rfl).1,
   (C8_no_clamp [("p1f0", (⟨['B','0','3'], 200, []⟩ : Entry))] "p1f0"
      ⟨['B','0','3'], 200, []⟩ ['B','0','3'] 250 0 rfl rfl).2.1⟩

/-- Claim C9 (confirmed): for any well made of a single row character
and a 1–2 digit column, the unpadded form (`A1`) and the zero-padded
form (`A01`) resolve to the same ledger entry; in particular a debit
given the unpadded well after a credit given the padded well targets
exactly the entry the credit updated (the credit changes no wells, so
resolution is unchanged). -/
theorem C9_well_normalization (inv : Inventory) (r : Char) (n : Nat)
    (h1 : 1 ≤ n) (h2 : n ≤ 99) :
    resolveWell inv (r :: natDigits n) = resolveWell inv (r :: pad2 n)
    ∧ ∀ (v : ℚ) (ts : Nat),
      resolveWell (refill_dna inv none (some (r :: pad2 n)) v ts) (r :: natDigits n)
        = resolveWell inv (r :: pad2 n) := by
  have hn : n < 100 := by omega
  have hcongr := resolveWell_congr inv _ _ (get_well_formats_mem_iff r n hn)
  refine ⟨hcongr, ?_⟩
  intro v ts
  rw [refill_dna_by_well, hcongr]

/-- Witness for `C9_well_normalization`: well `A1` versus `A01` on a
single-entry inventory stored under `A01`. -/
theorem C9_well_normalization_witness :
    resolveWell [("p1f0", (⟨['A','0','1'], 200, []⟩ : Entry))] ('A' :: natDigits 1)
      = resolveWell [("p1f0", (⟨['A','0','1'], 200, []⟩ : Entry))] ('A' :: pad2 1) :=
  (C9_well_normalization _ 'A' 1 (by decide) (by decide)).1

end AutoLab
